import Mathlib

/-!
Verification of the opensearch-keeper reconciliation core.

The development shallowly embeds the ISM-policy and template managers
(`ism_policy_manager.py`, `template_manager.py`) and the per-entity publish
dispatch of the CLI (`cli.py`).  JSON/YAML documents are modelled by the
inductive type `DVal`; Python dictionaries are association lists with unique
keys, so `dict.pop(k)` is modelled by removing every binding of `k` (on
unique-key lists the two coincide) and `dict.get(k)` by a first-occurrence
lookup that collapses an explicit null value to `none`, as Python's `get`
does.  Remote calls are modelled by explicit oracle arguments and the writes
a function issues are returned as an explicit list.
-/

/-- A JSON/YAML-like document value: null, booleans, integers, strings,
sequences and mappings (association lists over string keys). -/
inductive DVal where
  | nul
  | boolV (b : Bool)
  | intV (n : Int)
  | strV (s : String)
  | seq (xs : List DVal)
  | map (kvs : List (String × DVal))

/-- First-occurrence lookup in an association list, modelling `k in d` /
`d[k]` access on a Python dict. -/
def aget : List (String × DVal) → String → Option DVal
  | [], _ => none
  | (k, v) :: rest, key => if k = key then some v else aget rest key

/-- Collapse an explicit null to `none`: Python's `dict.get` returns `None`
both for a missing key and for a key bound to `null`. -/
def toPyOpt : Option DVal → Option DVal
  | some .nul => none
  | o => o

/-- Model of Python `d.get(k)` (default `None`). -/
def pyGet (kvs : List (String × DVal)) (k : String) : Option DVal :=
  toPyOpt (aget kvs k)

/-- Model of Python `d.pop(k, ...)`: remove the binding of `k`.  Dict keys
are unique, so removing every binding of `k` coincides with `pop`. -/
def dpop (kvs : List (String × DVal)) (k : String) : List (String × DVal) :=
  kvs.filter fun kv => decide (kv.1 ≠ k)

/-- Injective encoding of an `Int` into `Nat` (evens are the nonnegative
integers, odds the negative ones). -/
def encInt (n : Int) : Nat :=
  if 0 ≤ n then 2 * n.toNat else 2 * (-n).toNat + 1

/-- Injective encoding of a list of naturals into one natural, by iterated
pairing. -/
def encNatList : List Nat → Nat
  | [] => 0
  | x :: xs => Nat.pair x (encNatList xs) + 1

/-- Injective encoding of a string into a natural number via its
character codes. -/
def encStr (s : String) : Nat :=
  encNatList (s.data.map Char.toNat)

mutual

/-- Injective encoding of a `DVal` into `Nat`, used to order document values
when canonicalizing sequences. -/
def dvalEncode : DVal → Nat
  | .nul => Nat.pair 0 0
  | .boolV b => Nat.pair 1 b.toNat
  | .intV n => Nat.pair 2 (encInt n)
  | .strV s => Nat.pair 3 (encStr s)
  | .seq xs => Nat.pair 4 (dvalEncodeL xs)
  | .map kvs => Nat.pair 5 (dvalEncodeKV kvs)

/-- Encoding of a list of document values. -/
def dvalEncodeL : List DVal → Nat
  | [] => 0
  | x :: xs => Nat.pair (dvalEncode x) (dvalEncodeL xs) + 1

/-- Encoding of an association list of document values. -/
def dvalEncodeKV : List (String × DVal) → Nat
  | [] => 0
  | (k, v) :: kvs => Nat.pair (encStr k) (Nat.pair (dvalEncode v) (dvalEncodeKV kvs)) + 1

end

/-- Total order on document values used for canonical sorting. -/
def dle (a b : DVal) : Bool :=
  decide (dvalEncode a ≤ dvalEncode b)

mutual

/-- Canonical form of a document: sequences are recursively canonicalized
and then sorted, so two documents have the same canonical form exactly when
they are deep-equal up to reordering of sequence elements.  This models the
external DeepDiff library invoked with `ignore_order=True` (spec section
4.2): only the emptiness of the produced diff is modelled. -/
def canonD : DVal → DVal
  | .nul => .nul
  | .boolV b => .boolV b
  | .intV n => .intV n
  | .strV s => .strV s
  | .seq xs => .seq ((canonDL xs).mergeSort dle)
  | .map kvs => .map (canonDKV kvs)

/-- Canonical form of a list of documents (pointwise). -/
def canonDL : List DVal → List DVal
  | [] => []
  | x :: xs => canonD x :: canonDL xs

/-- Canonical form of a mapping (values pointwise; mapping entry order is
kept, matching the deterministic entry order of parsed documents). -/
def canonDKV : List (String × DVal) → List (String × DVal)
  | [] => []
  | (k, v) :: kvs => (k, canonD v) :: canonDKV kvs

end

/-- Modelled from the spec: the external DeepDiff comparison with
`ignore_order=True` reports changes exactly when the two documents differ
up to reordering of sequence elements, i.e. when their canonical forms
differ. -/
def deepDiffHasChanges (a b : DVal) : Bool :=
  dvalEncode (canonD a) != dvalEncode (canonD b)

mutual

/-- A document together with a variant obtained by permuting the elements
of any of its sequences, at any nesting depth. -/
inductive PermD : DVal → DVal → Prop where
  | nul : PermD .nul .nul
  | boolV (b : Bool) : PermD (.boolV b) (.boolV b)
  | intV (n : Int) : PermD (.intV n) (.intV n)
  | strV (s : String) : PermD (.strV s) (.strV s)
  | seq {xs ys zs : List DVal} : PermL xs ys → ys.Perm zs → PermD (.seq xs) (.seq zs)
  | map {kvs lvs : List (String × DVal)} : PermKV kvs lvs → PermD (.map kvs) (.map lvs)

/-- Pointwise permuted variants of a list of documents. -/
inductive PermL : List DVal → List DVal → Prop where
  | nil : PermL [] []
  | cons {x y : DVal} {xs ys : List DVal} :
      PermD x y → PermL xs ys → PermL (x :: xs) (y :: ys)

/-- Pointwise permuted variants of a mapping (keys unchanged). -/
inductive PermKV : List (String × DVal) → List (String × DVal) → Prop where
  | nil : PermKV [] []
  | cons {k : String} {v w : DVal} {kvs lvs : List (String × DVal)} :
      PermD v w → PermKV kvs lvs → PermKV ((k, v) :: kvs) ((k, w) :: lvs)

end

/-- Glob matching over character lists, modelling the stdlib `fnmatch`
pattern language (`*` matches any run, `?` any single character; bracket
character classes are not modelled — no configured pattern uses them).
The first argument is recursion fuel: every step consumes one unit while
shortening pattern plus text, so `length pattern + length text + 1` units
always suffice (`fnmatch` below supplies exactly that). -/
def globMatch : Nat → List Char → List Char → Bool
  | 0, _, _ => false
  | _ + 1, [], s => s.isEmpty
  | fuel + 1, '*' :: ps, [] => globMatch fuel ps []
  | fuel + 1, '*' :: ps, c :: cs =>
      globMatch fuel ps (c :: cs) || globMatch fuel ('*' :: ps) cs
  | _ + 1, '?' :: _, [] => false
  | fuel + 1, '?' :: ps, _ :: cs => globMatch fuel ps cs
  | _ + 1, _ :: _, [] => false
  | fuel + 1, p :: ps, c :: cs => p == c && globMatch fuel ps cs

/-- Model of `fnmatch.fnmatch(name, pattern)` as used by the managers. -/
def fnmatch (name pat : String) : Bool :=
  globMatch (pat.length + name.length + 1) pat.data name.data

/-- Embeds `ISMPolicyManager._should_ignore` (and the identical
`TemplateManager._should_ignore`): true when the name matches any
configured ignore pattern. -/
def should_ignore (ignore_patterns : List String) (policy_name : String) : Bool :=
  ignore_patterns.any fun pat => fnmatch policy_name pat

/-- True when the second list begins with the first. -/
def listIsInit : List Char → List Char → Bool
  | [], _ => true
  | _ :: _, [] => false
  | p :: ps, c :: cs => p == c && listIsInit ps cs

/-- Model of `str.endswith`. -/
def strEndsWith (s suf : String) : Bool :=
  listIsInit suf.data.reverse s.data.reverse

/-- Embeds the `file.endswith((".yaml", ".yml"))` filter of
`publish_policies` / `publish_templates`. -/
def hasYamlExt (file : String) : Bool :=
  strEndsWith file ".yaml" || strEndsWith file ".yml"

/-- Characters of a filename before the first dot. -/
def takeBeforeDot : List Char → List Char
  | [] => []
  | c :: cs => if c = '.' then [] else c :: takeBeforeDot cs

/-- Embeds `file.split(".")[0]`: the entity name derived from a filename. -/
def policyNameOfFile (file : String) : String :=
  ⟨takeBeforeDot file.data⟩

/-- True when the caller supplied a name-glob and the name does not match
it; embeds `if pattern and not fnmatch.fnmatch(name, pattern): continue`. -/
def patSkip (pat : Option String) (nm : String) : Bool :=
  match pat with
  | some p => !(fnmatch nm p)
  | none => false

/-- Embeds the per-entry cleanup of `ism_template` items: a dict entry has
its `last_updated_time` popped, anything else is left alone
(`ism_policy_manager.py` lines 119-122 and 294-298). -/
def cleanIsmItem : DVal → DVal
  | .map kvs => .map (dpop kvs "last_updated_time")
  | v => v

/-- Applies `cleanIsmItem` to every element when the `ism_template` value
is a list, mirroring the `isinstance(ism_template_list, list)` guard. -/
def cleanIsmVal : DVal → DVal
  | .seq xs => .seq (xs.map cleanIsmItem)
  | v => v

/-- Rewrites the `ism_template` binding of a policy document with its
cleaned value (the source mutates the looked-up list in place). -/
def adjustIsm (kvs : List (String × DVal)) : List (String × DVal) :=
  kvs.map fun kv => if kv.1 = "ism_template" then (kv.1, cleanIsmVal kv.2) else kv

/-- Embeds the metadata cleanup of `diff_policy` (lines 290-298): pop
`last_updated_time`, `schema_version` and `policy_id`, then strip per-entry
timestamps inside a nested `ism_template` list. -/
def cleanPolicyData (pd : List (String × DVal)) : List (String × DVal) :=
  adjustIsm (dpop (dpop (dpop pd "last_updated_time") "schema_version") "policy_id")

/-- One element of the result of `list_policies`: the policy name, the
cleaned policy document, and the top-level update time in whole seconds. -/
structure PolicyEntry where
  name : String
  policy : List (String × DVal)
  last_updated_time : Int

/-- Embeds the body of the `for policy_item in raw_policies` loop of
`ISMPolicyManager.list_policies` (lines 93-130).  `.ok none` is a skipped
item (`continue`), `.error ()` models a raised exception: a non-integer
`last_updated_time` (`// 1000` raises `TypeError`) or a missing/non-string
policy identifier (which makes the later name uses fail). -/
def processPolicyItem (ig : List String) (pat : Option String) (item : DVal) :
    Except Unit (Option PolicyEntry) :=
  match item with
  | .map item_kvs =>
    match aget item_kvs "policy" with
    | none => .ok none
    | some (.map pd0) =>
      let nameVal : Option DVal :=
        match aget pd0 "policy_id" with
        | some v => some v
        | none => pyGet item_kvs "_id"
      let pd := dpop pd0 "policy_id"
      match nameVal with
      | some (.strV policy_name) =>
        if should_ignore ig policy_name then .ok none
        else if patSkip pat policy_name then .ok none
        else
          let tsms : Except Unit Int :=
            match aget pd "last_updated_time" with
            | none => .ok 0
            | some (.intV v) => .ok v
            | some _ => .error ()
          match tsms with
          | .error e => .error e
          | .ok v =>
            .ok (some ⟨policy_name,
              adjustIsm (dpop (dpop pd "last_updated_time") "schema_version"),
              v.fdiv 1000⟩)
      | _ => .error ()
    | some _ => .ok none
  | _ => .ok none

/-- Folds `processPolicyItem` over the raw policy items, appending the
kept entries in order and propagating a raised exception. -/
def collectPolicies (ig : List String) (pat : Option String) :
    List DVal → Except Unit (List PolicyEntry)
  | [] => .ok []
  | it :: rest =>
    match processPolicyItem ig pat it with
    | .error e => .error e
    | .ok r =>
      match collectPolicies ig pat rest with
      | .error e => .error e
      | .ok rs => .ok (match r with | some e => e :: rs | none => rs)

/-- Embeds `ISMPolicyManager.list_policies`: validate that the response
carries a `policies` list (else `ValueError`), then process each item. -/
def list_policies (ig : List String) (pat : Option String)
    (response : List (String × DVal)) : Except Unit (List PolicyEntry) :=
  match aget response "policies" with
  | some (.seq items) => collectPolicies ig pat items
  | _ => .error ()

/-- The file path `os.path.join(policies_dir, f"{name}.yaml")`. -/
def savePath (dir name : String) : String :=
  dir ++ "/" ++ name ++ ".yaml"

/-- Embeds `ISMPolicyManager.save_policy`: `writeOk` tells whether the
file write succeeds, but the `except` clause only logs, so the intended
file path is returned in both branches. -/
def save_policy (dir name : String) (writeOk : Bool) : String :=
  match writeOk with
  | true => savePath dir name
  | false => savePath dir name

/-- Embeds `ISMPolicyManager.save_policies`: list, then save each policy,
collecting the returned paths. -/
def save_policies (dir : String) (ig : List String) (pat : Option String)
    (response : List (String × DVal)) (writeOk : String → Bool) :
    Except Unit (List String) :=
  match list_policies ig pat response with
  | .error e => .error e
  | .ok ps => .ok (ps.map fun p => save_policy dir p.name (writeOk p.name))

/-- Outcome of the remote `get_policy(policy=name)` call: a response
document, a raised `NotFoundError`, or any other raised exception. -/
inductive GetPolicyResult where
  | found (resp : List (String × DVal))
  | notFound
  | otherError

/-- One `put_policy` call issued to the remote store: the policy name, the
request body, and the optional `(if_seq_no, if_primary_term)` concurrency
precondition params. -/
structure PutCall where
  policy : String
  body : DVal
  precond : Option (DVal × DVal)

/-- State of a local file as seen by the managers: missing (open raises),
unparsable (yaml.safe_load raises), or parsed to a value. -/
inductive LocalFile where
  | missing
  | parseError
  | parsed (v : DVal)

/-- Embeds `ISMPolicyManager.publish_policy` (lines 170-218).  The first
component lists the `put_policy` calls issued, the second is the returned
success flag.  `putOk` tells whether a given put succeeds (false models a
raised error, e.g. a concurrency-token conflict). -/
def publish_policy (policy_name : String) (file : LocalFile) (get : GetPolicyResult)
    (putOk : PutCall → Bool) : List PutCall × Bool :=
  match file with
  | .missing => ([], false)
  | .parseError => ([], false)
  | .parsed v =>
    match v with
    | .map [] => ([], false)
    | .map kvs =>
      let tok : Option DVal × Option DVal :=
        match get with
        | .found resp => (pyGet resp "_seq_no", pyGet resp "_primary_term")
        | .notFound => (none, none)
        | .otherError => (none, none)
      let call : PutCall :=
        match tok with
        | (some s, some t) => ⟨policy_name, .map [("policy", .map kvs)], some (s, t)⟩
        | _ => ⟨policy_name, .map [("policy", .map kvs)], none⟩
      ([call], putOk call)
    | _ => ([], false)

/-- Python dict assignment on an association list: replace the value of an
existing key in place, otherwise append the new binding. -/
def assocSet : List (String × Bool) → String → Bool → List (String × Bool)
  | [], k, v => [(k, v)]
  | (k2, v2) :: rest, k, v =>
    if k2 = k then (k, v) :: rest else (k2, v2) :: assocSet rest k v

/-- Loop of `ISMPolicyManager.publish_policies` (lines 226-238): iterate
the directory listing, keep `.yaml`/`.yml` files, filter by the caller's
name-glob only, and call `publish_policy` for each.  `acc` is the results
dict, `calls` the `(name, path)` publish attempts made so far. -/
def publishLoop (dir : String) (pat : Option String)
    (pub : String → String → List PutCall × Bool) :
    List String → List (String × Bool) → List (String × String) →
      List (String × Bool) × List (String × String)
  | [], acc, calls => (acc, calls)
  | file :: rest, acc, calls =>
    if hasYamlExt file then
      let nm := policyNameOfFile file
      if patSkip pat nm then publishLoop dir pat pub rest acc calls
      else
        publishLoop dir pat pub rest
          (assocSet acc nm (pub nm (dir ++ "/" ++ file)).2)
          (calls ++ [(nm, dir ++ "/" ++ file)])
    else publishLoop dir pat pub rest acc calls

/-- Embeds `ISMPolicyManager.publish_policies`: returns the name-to-success
results dict and the list of attempted publishes. -/
def publish_policies (dir : String) (files : List String) (pat : Option String)
    (pub : String → String → List PutCall × Bool) :
    List (String × Bool) × List (String × String) :=
  publishLoop dir pat pub files [] []

/-- The directory entries `publish_policies` selects: yaml/yml files whose
derived name passes the caller's name-glob (the ignore list plays no
part). -/
def publishSelected (pat : Option String) (files : List String) : List String :=
  files.filter fun f => hasYamlExt f && !(patSkip pat (policyNameOfFile f))

/-- Result dict of `ISMPolicyManager.diff_policy`: either
`{"has_changes": False}` or the changes record carrying the cleaned remote
document, the local document and the concurrency token parts. -/
inductive DiffOutcome where
  | noChanges
  | changes (remote_policy : List (String × DVal)) (local_policy : DVal)
      (seq_no : Option DVal) (primary_term : Option DVal)

/-- The `has_changes` field of a diff result. -/
def has_changes : DiffOutcome → Bool
  | .noChanges => false
  | .changes _ _ _ _ => true

/-- Embeds `ISMPolicyManager.diff_policy` (lines 254-320).  `.ok none` is
the `return None` path, `.error ()` a raised exception (a remote failure
other than NotFound is re-raised; a non-dict `policy` value makes the
`.pop` calls raise). -/
def diff_policy (file : LocalFile) (get : GetPolicyResult) :
    Except Unit (Option DiffOutcome) :=
  match file with
  | .missing => .ok none
  | .parseError => .ok none
  | .parsed lv =>
    match lv with
    | .map [] => .ok none
    | .map kvs =>
      match get with
      | .notFound => .ok none
      | .otherError => .error ()
      | .found resp =>
        if resp.isEmpty then .ok none
        else
          match aget resp "policy" with
          | none => .ok none
          | some (.map rp0) =>
            if deepDiffHasChanges (.map (cleanPolicyData rp0)) (.map kvs) then
              .ok (some (.changes (cleanPolicyData rp0) (.map kvs)
                (pyGet resp "_seq_no") (pyGet resp "_primary_term")))
            else .ok (some .noChanges)
          | some _ => .error ()
    | _ => .ok none

/-- One `put_index_template` call issued to the remote store. -/
structure TemplatePut where
  name : String
  body : DVal

/-- Embeds `TemplateManager.publish_template` (lines 117-144): reject a
missing/unparsable/empty/non-dict document, then require an
`index_patterns` key before issuing the single put. -/
def publish_template (template_name : String) (file : LocalFile) (putOk : Bool) :
    List TemplatePut × Bool :=
  match file with
  | .missing => ([], false)
  | .parseError => ([], false)
  | .parsed v =>
    match v with
    | .map [] => ([], false)
    | .map kvs =>
      if (aget kvs "index_patterns").isSome then
        ([⟨template_name, .map kvs⟩], putOk)
      else ([], false)
    | _ => ([], false)

/-- Outcome recorded by the CLI publish loop for one policy: added to the
`successful` dict, silently unrecorded (publish returned False), or
appended to `skipped` (operator declined / no changes). -/
inductive StepOutcome where
  | published
  | publishFailed
  | declined
  | noChangesSkip

/-- Embeds the per-policy dispatch of the CLI `publish_ism_policies`
command (`cli.py` lines 432-459): create when the diff is `None`, confirm
and publish when there are changes, skip otherwise.  `pub` stands for the
`publish_policy(policy_name)` call; the first component collects the
issued writes. -/
def cliPublishStep (diff : Option DiffOutcome) (force confirmAns : Bool)
    (pub : Unit → List PutCall × Bool) : List PutCall × StepOutcome :=
  match diff with
  | none =>
    let r := pub ()
    (r.1, if r.2 then .published else .publishFailed)
  | some d =>
    if has_changes d then
      if force || confirmAns then
        let r := pub ()
        (r.1, if r.2 then .published else .publishFailed)
      else ([], .declined)
    else ([], .noChangesSkip)

/-- Modelled from the spec: `ISMPolicyManager.list_local_policies_names`,
which the CLI publish command calls but which is absent from the sources.
Per spec sections 4.3 and 6 it lists local policy names: yaml/yml files of
the policies directory, names taken before the first dot, filtered by the
optional name-glob. -/
def list_local_policies_names (files : List String) (pat : Option String) :
    List String :=
  ((files.filter hasYamlExt).map policyNameOfFile).filter fun nm => !(patSkip pat nm)

theorem encInt_inj {n m : Int} (h : encInt n = encInt m) : n = m := by
  simp only [encInt] at h
  split at h <;> split at h <;> omega

theorem encNatList_inj : ∀ {xs ys : List Nat}, encNatList xs = encNatList ys → xs = ys
  | [], [], _ => rfl
  | [], _ :: _, h => by simp [encNatList] at h
  | _ :: _, [], h => by simp [encNatList] at h
  | x :: xs, y :: ys, h => by
      simp only [encNatList, Nat.add_left_inj, Nat.pair_eq_pair] at h
      rw [h.1, encNatList_inj h.2]

theorem encStr_inj {s t : String} (h : encStr s = encStr t) : s = t := by
  have hd : s.data.map Char.toNat = t.data.map Char.toNat := encNatList_inj h
  have hinj : Function.Injective Char.toNat := by
    intro a b hab
    rw [← Char.ofNat_toNat a, ← Char.ofNat_toNat b, hab]
  exact String.ext (List.map_injective_iff.mpr hinj hd)

theorem dvalEncode_inj_aux : ∀ n : Nat,
    (∀ a b : DVal, sizeOf a ≤ n → dvalEncode a = dvalEncode b → a = b) ∧
    (∀ xs ys : List DVal, sizeOf xs ≤ n → dvalEncodeL xs = dvalEncodeL ys → xs = ys) ∧
    (∀ kvs lvs : List (String × DVal), sizeOf kvs ≤ n →
      dvalEncodeKV kvs = dvalEncodeKV lvs → kvs = lvs) := by
  intro n
  induction n using Nat.strong_induction_on with
  | _ n ih =>
    refine ⟨?_, ?_, ?_⟩
    · intro a b hs h
      cases a <;> cases b <;> simp only [dvalEncode, Nat.pair_eq_pair] at h <;> try omega
      case nul.nul => rfl
      case boolV.boolV b c =>
        cases b <;> cases c <;> simp_all
      case intV.intV n m =>
        rw [encInt_inj h.2]
      case strV.strV s t =>
        rw [encStr_inj h.2]
      case seq.seq xs ys =>
        have hsx : sizeOf xs < n := by
          have := DVal.seq.sizeOf_spec xs
          omega
        rw [(ih (sizeOf xs) hsx).2.1 xs ys le_rfl h.2]
      case map.map kvs lvs =>
        have hsx : sizeOf kvs < n := by
          have := DVal.map.sizeOf_spec kvs
          omega
        rw [(ih (sizeOf kvs) hsx).2.2 kvs lvs le_rfl h.2]
    · intro xs ys hs h
      match xs, ys with
      | [], [] => rfl
      | [], y :: ys => simp [dvalEncodeL] at h
      | x :: xs, [] => simp [dvalEncodeL] at h
      | x :: xs, y :: ys =>
        simp only [dvalEncodeL, Nat.add_left_inj, Nat.pair_eq_pair] at h
        have hx : sizeOf x < n := by
          have := List.cons.sizeOf_spec x xs
          omega
        have hxs : sizeOf xs < n := by
          have := List.cons.sizeOf_spec x xs
          omega
        rw [(ih (sizeOf x) hx).1 x y le_rfl h.1,
          (ih (sizeOf xs) hxs).2.1 xs ys le_rfl h.2]
    · intro kvs lvs hs h
      match kvs, lvs with
      | [], [] => rfl
      | [], (k, v) :: lvs => simp [dvalEncodeKV] at h
      | (k, v) :: kvs, [] => simp [dvalEncodeKV] at h
      | (k, v) :: kvs, (k2, v2) :: lvs =>
        simp only [dvalEncodeKV, Nat.add_left_inj, Nat.pair_eq_pair] at h
        have hv : sizeOf v < n := by
          have h1 := List.cons.sizeOf_spec (k, v) kvs
          have h2 := Prod.mk.sizeOf_spec k v
          omega
        have hkvs : sizeOf kvs < n := by
          have h1 := List.cons.sizeOf_spec (k, v) kvs
          omega
        rw [encStr_inj h.1, (ih (sizeOf v) hv).1 v v2 le_rfl h.2.1,
          (ih (sizeOf kvs) hkvs).2.2 kvs lvs le_rfl h.2.2]

theorem dvalEncode_inj {a b : DVal} (h : dvalEncode a = dvalEncode b) : a = b :=
  (dvalEncode_inj_aux (sizeOf a)).1 a b le_rfl h

theorem dle_trans (a b c : DVal) (h1 : dle a b = true) (h2 : dle b c = true) :
    dle a c = true := by
  simp only [dle, decide_eq_true_eq] at *
  omega

theorem dle_total (a b : DVal) : (dle a b || dle b a) = true := by
  simp only [dle, Bool.or_eq_true, decide_eq_true_eq]
  omega

theorem mergeSort_dle_eq {l₁ l₂ : List DVal} (h : l₁.Perm l₂) :
    l₁.mergeSort dle = l₂.mergeSort dle := by
  haveI : IsAntisymm DVal (fun a b => dle a b = true) := by
    constructor
    intro a b h1 h2
    simp only [dle, decide_eq_true_eq] at h1 h2
    exact dvalEncode_inj (Nat.le_antisymm h1 h2)
  exact List.eq_of_perm_of_sorted
    (((l₁.mergeSort_perm dle).trans h).trans (l₂.mergeSort_perm dle).symm)
    (List.sorted_mergeSort dle_trans dle_total l₁)
    (List.sorted_mergeSort dle_trans dle_total l₂)

theorem canonDL_eq_map (l : List DVal) : canonDL l = l.map canonD := by
  induction l with
  | nil => simp [canonDL]
  | cons x xs ihx => simp [canonDL, ihx]

theorem canonD_permD_aux : ∀ n : Nat,
    (∀ a b : DVal, sizeOf a ≤ n → PermD a b → canonD a = canonD b) ∧
    (∀ xs ys : List DVal, sizeOf xs ≤ n → PermL xs ys → canonDL xs = canonDL ys) ∧
    (∀ kvs lvs : List (String × DVal), sizeOf kvs ≤ n → PermKV kvs lvs →
      canonDKV kvs = canonDKV lvs) := by
  intro n
  induction n using Nat.strong_induction_on with
  | _ n ih =>
    refine ⟨?_, ?_, ?_⟩
    · intro a b hs h
      cases h with
      | nul => rfl
      | boolV b => rfl
      | intV m => rfl
      | strV s => rfl
      | seq hL hp =>
        rename_i xs ys zs
        have hsx : sizeOf xs < n := by
          have := DVal.seq.sizeOf_spec xs
          omega
        have h1 : canonDL xs = canonDL ys := (ih (sizeOf xs) hsx).2.1 xs ys le_rfl hL
        have h2 : (canonDL ys).Perm (canonDL zs) := by
          rw [canonDL_eq_map, canonDL_eq_map]
          exact hp.map canonD
        simp only [canonD]
        rw [h1, mergeSort_dle_eq h2]
      | map hKV =>
        rename_i kvs lvs
        have hsx : sizeOf kvs < n := by
          have := DVal.map.sizeOf_spec kvs
          omega
        simp only [canonD]
        rw [(ih (sizeOf kvs) hsx).2.2 kvs lvs le_rfl hKV]
    · intro xs ys hs h
      cases h with
      | nil => rfl
      | cons hxy hL =>
        rename_i x y xs ys
        have hx : sizeOf x < n := by
          have := List.cons.sizeOf_spec x xs
          omega
        have hxs : sizeOf xs < n := by
          have := List.cons.sizeOf_spec x xs
          omega
        simp only [canonDL]
        rw [(ih (sizeOf x) hx).1 x y le_rfl hxy,
          (ih (sizeOf xs) hxs).2.1 xs ys le_rfl hL]
    · intro kvs lvs hs h
      cases h with
      | nil => rfl
      | cons hvw hKV =>
        rename_i k v w kvs lvs
        have hv : sizeOf v < n := by
          have h1 := List.cons.sizeOf_spec (k, v) kvs
          have h2 := Prod.mk.sizeOf_spec k v
          omega
        have hkvs : sizeOf kvs < n := by
          have h1 := List.cons.sizeOf_spec (k, v) kvs
          omega
        simp only [canonDKV]
        rw [(ih (sizeOf v) hv).1 v w le_rfl hvw,
          (ih (sizeOf kvs) hkvs).2.2 kvs lvs le_rfl hKV]

theorem canonD_eq_of_permD {a b : DVal} (h : PermD a b) : canonD a = canonD b :=
  (canonD_permD_aux (sizeOf a)).1 a b le_rfl h


theorem aget_eq_none (l : List (String × DVal)) (k : String)
    (h : ∀ kv ∈ l, kv.1 ≠ k) : aget l k = none := by
  induction l with
  | nil => rfl
  | cons kv rest ih =>
    obtain ⟨k1, v1⟩ := kv
    have h1 : k1 ≠ k := h (k1, v1) (List.mem_cons_self _ _)
    simp only [aget, if_neg h1]
    exact ih fun kv hm => h kv (List.mem_cons_of_mem _ hm)

theorem mem_dpop {l : List (String × DVal)} {k : String} {kv : String × DVal}
    (h : kv ∈ dpop l k) : kv ∈ l ∧ kv.1 ≠ k := by
  have := List.mem_filter.mp h
  simpa using this

theorem dpop_eq_self (l : List (String × DVal)) (k : String)
    (h : ∀ kv ∈ l, kv.1 ≠ k) : dpop l k = l := by
  simp only [dpop]
  refine List.filter_eq_self.mpr fun kv hm => ?_
  simpa using h kv hm

theorem dpop_dpop_self (l : List (String × DVal)) (k : String) :
    dpop (dpop l k) k = dpop l k :=
  dpop_eq_self _ _ fun _ hm => (mem_dpop hm).2

theorem aget_dpop_self (l : List (String × DVal)) (k : String) :
    aget (dpop l k) k = none :=
  aget_eq_none _ _ fun _ hm => (mem_dpop hm).2

theorem aget_dpop_ne (l : List (String × DVal)) {k k2 : String} (h : k ≠ k2) :
    aget (dpop l k2) k = aget l k := by
  induction l with
  | nil => rfl
  | cons kv rest ih =>
    obtain ⟨k1, v1⟩ := kv
    by_cases h2 : k1 = k2
    · show aget (List.filter (fun kv => decide (kv.1 ≠ k2)) ((k1, v1) :: rest)) k = _
      rw [List.filter_cons_of_neg (by simp [h2])]
      have h3 : k1 ≠ k := by rw [h2]; exact fun he => h he.symm
      show aget (dpop rest k2) k = _
      rw [ih]
      simp [aget, h3]
    · show aget (List.filter (fun kv => decide (kv.1 ≠ k2)) ((k1, v1) :: rest)) k = _
      rw [List.filter_cons_of_pos (by simpa using h2)]
      by_cases h3 : k1 = k
      · simp [aget, h3]
      · simp only [aget, if_neg h3]
        exact ih

theorem mem_adjustIsm {l : List (String × DVal)} {kv : String × DVal}
    (h : kv ∈ adjustIsm l) : ∃ kv2 ∈ l, kv.1 = kv2.1 := by
  simp only [adjustIsm, List.mem_map] at h
  obtain ⟨kv2, hm, he⟩ := h
  refine ⟨kv2, hm, ?_⟩
  by_cases h2 : kv2.1 = "ism_template"
  · rw [if_pos h2] at he
    rw [← he]
  · rw [if_neg h2] at he
    rw [he]

theorem aget_adjustIsm_ne (l : List (String × DVal)) {k : String}
    (h : k ≠ "ism_template") : aget (adjustIsm l) k = aget l k := by
  induction l with
  | nil => rfl
  | cons kv rest ih =>
    obtain ⟨k1, v1⟩ := kv
    simp only [adjustIsm, List.map_cons] at ih ⊢
    by_cases h2 : k1 = "ism_template"
    · rw [if_pos h2]
      have h3 : k1 ≠ k := fun he => h (he.symm.trans h2)
      simp [aget, h3, ih]
    · rw [if_neg h2]
      by_cases h3 : k1 = k
      · simp [aget, h3]
      · simp [aget, h3, ih]

theorem cleanIsmItem_idem (v : DVal) : cleanIsmItem (cleanIsmItem v) = cleanIsmItem v := by
  cases v <;> simp only [cleanIsmItem]
  case map kvs => rw [dpop_dpop_self]

theorem cleanIsmVal_idem (v : DVal) : cleanIsmVal (cleanIsmVal v) = cleanIsmVal v := by
  cases v <;> simp only [cleanIsmVal]
  case seq xs =>
    rw [List.map_map]
    exact congrArg DVal.seq (List.map_congr_left fun x _ => cleanIsmItem_idem x)

theorem adjustIsm_idem (l : List (String × DVal)) :
    adjustIsm (adjustIsm l) = adjustIsm l := by
  simp only [adjustIsm, List.map_map]
  refine List.map_congr_left fun kv _ => ?_
  by_cases h : kv.1 = "ism_template" <;> simp [h, cleanIsmVal_idem]

/-- C6: metadata normalization is idempotent — stripping the identifier,
the last-update timestamp, the schema-version marker and the per-entry
timestamps inside a nested `ism_template` list from an already-normalized
policy document leaves it unchanged: normalize twice equals normalize
once. -/
theorem claim_C6_normalize_idempotent (pd : List (String × DVal)) :
    cleanPolicyData (cleanPolicyData pd) = cleanPolicyData pd := by
  have habsent : ∀ k, k = "last_updated_time" ∨ k = "schema_version" ∨ k = "policy_id" →
      dpop (cleanPolicyData pd) k = cleanPolicyData pd := by
    intro k hk
    refine dpop_eq_self _ _ fun kv hm => ?_
    obtain ⟨kv2, hm2, he⟩ := mem_adjustIsm hm
    rw [he]
    rcases hk with h | h | h <;> rw [h]
    · exact (mem_dpop (mem_dpop (mem_dpop hm2).1).1).2
    · exact (mem_dpop (mem_dpop hm2).1).2
    · exact (mem_dpop hm2).2
  show adjustIsm (dpop (dpop (dpop (cleanPolicyData pd) "last_updated_time")
    "schema_version") "policy_id") = cleanPolicyData pd
  rw [habsent "last_updated_time" (Or.inl rfl),
    habsent "schema_version" (Or.inr (Or.inl rfl)),
    habsent "policy_id" (Or.inr (Or.inr rfl))]
  show adjustIsm (adjustIsm (dpop (dpop (dpop pd "last_updated_time")
    "schema_version") "policy_id")) = cleanPolicyData pd
  rw [adjustIsm_idem]
  rfl

/-- C5: for every document and every variant of it obtained by permuting
the elements of any of its sequences, at any nesting depth, the diff
comparison used by `diff_policy` reports no changes — sequence element
order never by itself constitutes a change. -/
theorem claim_C5_order_insensitive (d d2 : DVal) (h : PermD d d2) :
    deepDiffHasChanges d d2 = false := by
  simp [deepDiffHasChanges, canonD_eq_of_permD h]

/-- Witness for C5 at a concrete pair: `[1, 2]` against its permutation
`[2, 1]`. -/
theorem claim_C5_witness :
    PermD (.seq [.intV 1, .intV 2]) (.seq [.intV 2, .intV 1]) ∧
      deepDiffHasChanges (.seq [.intV 1, .intV 2]) (.seq [.intV 2, .intV 1]) = false := by
  have hp : PermD (.seq [.intV 1, .intV 2]) (.seq [.intV 2, .intV 1]) :=
    PermD.seq (PermL.cons (PermD.intV 1) (PermL.cons (PermD.intV 2) PermL.nil))
      (List.Perm.swap (DVal.intV 2) (DVal.intV 1) [])
  exact ⟨hp, claim_C5_order_insensitive _ _ hp⟩

/-- C2: during publish of an existing local document, a remote NotFound
leads to a single put with no concurrency precondition; a remote document
carrying `_seq_no` and `_primary_term` leads to the put conditioned on
exactly that token; and a rejected conditioned put makes `publish_policy`
report failure after that one write — no retry is issued. -/
theorem claim_C2_create_update_conflict (name : String) (kv : String × DVal)
    (kvs : List (String × DVal)) (putOk : PutCall → Bool)
    (resp : List (String × DVal)) (s t : DVal) :
    (publish_policy name (.parsed (.map (kv :: kvs))) .notFound putOk).1 =
      [⟨name, .map [("policy", .map (kv :: kvs))], none⟩] ∧
    (pyGet resp "_seq_no" = some s → pyGet resp "_primary_term" = some t →
      (publish_policy name (.parsed (.map (kv :: kvs))) (.found resp) putOk).1 =
        [⟨name, .map [("policy", .map (kv :: kvs))], some (s, t)⟩]) ∧
    (pyGet resp "_seq_no" = some s → pyGet resp "_primary_term" = some t →
      putOk ⟨name, .map [("policy", .map (kv :: kvs))], some (s, t)⟩ = false →
      publish_policy name (.parsed (.map (kv :: kvs))) (.found resp) putOk =
        ([⟨name, .map [("policy", .map (kv :: kvs))], some (s, t)⟩], false)) := by
  refine ⟨rfl, ?_, ?_⟩
  · intro h1 h2
    simp [publish_policy, h1, h2]
  · intro h1 h2 h3
    simp [publish_policy, h1, h2, h3]

/-- Witness for C2 at concrete inputs: a one-field policy file, a remote
response with token `(3, 7)`, and a put oracle that rejects every write. -/
theorem claim_C2_witness :
    (publish_policy "p" (.parsed (.map [("a", .nul)])) .notFound (fun _ => false)).1 =
      [⟨"p", .map [("policy", .map [("a", .nul)])], none⟩] ∧
    publish_policy "p" (.parsed (.map [("a", .nul)]))
        (.found [("_seq_no", .intV 3), ("_primary_term", .intV 7)]) (fun _ => false) =
      ([⟨"p", .map [("policy", .map [("a", .nul)])], some (.intV 3, .intV 7)⟩], false) := by
  refine ⟨(claim_C2_create_update_conflict "p" ("a", .nul) [] (fun _ => false)
      [("_seq_no", .intV 3), ("_primary_term", .intV 7)] (.intV 3) (.intV 7)).1,
    (claim_C2_create_update_conflict "p" ("a", .nul) [] (fun _ => false)
      [("_seq_no", .intV 3), ("_primary_term", .intV 7)] (.intV 3) (.intV 7)).2.2
      rfl rfl rfl⟩

/-- Counterexample to C4 as stated: with a remote lookup failing with an
error other than NotFound, `publish_policy` still issues a write (an
unconditional put) and can report success — the entity is not aborted. -/
theorem claim_C4_counterexample :
    publish_policy "p" (.parsed (.map [("a", .nul)])) .otherError (fun _ => true) =
      ([⟨"p", .map [("policy", .map [("a", .nul)])], none⟩], true) ∧
    (publish_policy "p" (.parsed (.map [("a", .nul)])) .otherError (fun _ => true)).1 ≠ [] := by
  refine ⟨rfl, ?_⟩
  intro h
  simp [publish_policy] at h

/-- C4 amended: a remote-lookup failure other than NotFound is only
logged; `publish_policy` proceeds exactly as for a create, issuing the one
put with no concurrency precondition, and reports that put's outcome. -/
theorem claim_C4_amended (name : String) (kv : String × DVal)
    (kvs : List (String × DVal)) (putOk : PutCall → Bool) :
    publish_policy name (.parsed (.map (kv :: kvs))) .otherError putOk =
      ([⟨name, .map [("policy", .map (kv :: kvs))], none⟩],
        putOk ⟨name, .map [("policy", .map (kv :: kvs))], none⟩) := rfl

/-- C7: a template document lacking an `index_patterns` key, or empty, or
not a mapping, makes `publish_template` return failure with no write ever
issued — the patterns-field check precedes any publish call (the put
oracle is never consulted). -/
theorem claim_C7_template_patterns_check (name : String) (putOk : Bool) :
    (∀ kvs, aget kvs "index_patterns" = none →
      publish_template name (.parsed (.map kvs)) putOk = ([], false)) ∧
    (∀ v, (∀ kvs, v ≠ DVal.map kvs) →
      publish_template name (.parsed v) putOk = ([], false)) := by
  constructor
  · intro kvs h
    match kvs with
    | [] => rfl
    | kv :: rest => simp [publish_template, h]
  · intro v h
    cases v with
    | map kvs => exact absurd rfl (h kvs)
    | nul => rfl
    | boolV b => rfl
    | intV n => rfl
    | strV s => rfl
    | seq xs => rfl

/-- Witness for C7: a nonempty template document without `index_patterns`,
and a non-mapping document, both with a put oracle that would accept. -/
theorem claim_C7_witness :
    publish_template "t" (.parsed (.map [("a", .nul)])) true = ([], false) ∧
    publish_template "t" (.parsed (.seq [])) true = ([], false) :=
  ⟨(claim_C7_template_patterns_check "t" true).1 [("a", .nul)] rfl,
    (claim_C7_template_patterns_check "t" true).2 (.seq [])
      fun _ h => DVal.noConfusion h⟩

/-- C10: `diff_policy` returns the `create it` signal `None` in several
distinct situations — missing local file, unparsable or non-mapping or
empty local document, remote NotFound, and a remote response without a
`policy` key — so the return value alone cannot separate them. -/
theorem claim_C10_diff_none_conflation :
    (∀ get, diff_policy .missing get = .ok none) ∧
    (∀ get, diff_policy .parseError get = .ok none) ∧
    (∀ get v, (∀ kv kvs, v ≠ DVal.map (kv :: kvs)) →
      diff_policy (.parsed v) get = .ok none) ∧
    (∀ kv kvs, diff_policy (.parsed (.map (kv :: kvs))) .notFound = .ok none) ∧
    (∀ kv kvs resp, aget resp "policy" = none →
      diff_policy (.parsed (.map (kv :: kvs))) (.found resp) = .ok none) := by
  refine ⟨fun _ => rfl, fun _ => rfl, ?_, fun _ _ => rfl, ?_⟩
  · intro get v h
    cases v with
    | map kvs =>
      match kvs with
      | [] => rfl
      | kv :: rest => exact absurd rfl (h kv rest)
    | nul => rfl
    | boolV b => rfl
    | intV n => rfl
    | strV s => rfl
    | seq xs => rfl
  · intro kv kvs resp h
    match resp with
    | [] => rfl
    | r :: rest => simp [diff_policy, h]

/-- Witness for C10: the `None` cases evaluated at concrete inputs — a
non-mapping local document and a remote response lacking a `policy`
key. -/
theorem claim_C10_witness :
    diff_policy (.parsed (.seq [])) (.found [("x", .nul)]) = .ok none ∧
    diff_policy (.parsed (.map [("a", .nul)])) (.found [("x", .nul)]) = .ok none :=
  ⟨(claim_C10_diff_none_conflation).2.2.1 (.found [("x", .nul)]) (.seq [])
      (fun _ _ h => DVal.noConfusion h),
    (claim_C10_diff_none_conflation).2.2.2.2 ("a", .nul) [] [("x", .nul)] rfl⟩

/-- C3: when the local policy document equals the cleaned remote document
up to sequence reordering (so the diff reports `has_changes = false`), the
per-entity publish dispatch records the entity as a no-change skip and
issues zero writes, whatever the force flag, the operator answer or the
publish outcome would have been. -/
theorem claim_C3_nochange_skip (kv : String × DVal) (kvs : List (String × DVal))
    (resp rp0 : List (String × DVal)) (force confirmAns : Bool)
    (pub : Unit → List PutCall × Bool)
    (hr : aget resp "policy" = some (.map rp0))
    (heq : canonD (.map (cleanPolicyData rp0)) = canonD (.map (kv :: kvs))) :
    diff_policy (.parsed (.map (kv :: kvs))) (.found resp) = .ok (some .noChanges) ∧
    cliPublishStep (some .noChanges) force confirmAns pub = ([], .noChangesSkip) := by
  constructor
  · match resp with
    | [] => exact absurd hr (by simp [aget])
    | r :: rest =>
      have hfalse : deepDiffHasChanges (.map (cleanPolicyData rp0)) (.map (kv :: kvs)) = false := by
        simp [deepDiffHasChanges, heq]
      simp [diff_policy, hr, hfalse]
  · rfl

/-- Witness for C3: a remote document whose metadata-stripped body is
exactly the local document. -/
theorem claim_C3_witness :
    diff_policy (.parsed (.map [("a", .strV "x")]))
        (.found [("policy", .map [("policy_id", .strV "p1"),
          ("last_updated_time", .intV 5), ("a", .strV "x")])]) =
      .ok (some .noChanges) ∧
    cliPublishStep (some .noChanges) false false (fun _ => ([], true)) =
      ([], .noChangesSkip) :=
  claim_C3_nochange_skip ("a", .strV "x") [] _ _ false false _ rfl
    (congrArg (fun l => canonD (DVal.map l)) rfl)



theorem processPolicyItem_ok_inv {ig : List String} {pat : Option String} {item : DVal}
    {e : PolicyEntry} (h : processPolicyItem ig pat item = .ok (some e)) :
    should_ignore ig e.name = false ∧
    ∃ pd, e.policy = adjustIsm (dpop (dpop pd "last_updated_time") "schema_version") := by
  cases item with
  | map item_kvs =>
    simp only [processPolicyItem] at h
    split at h
    next => simp at h
    next pd0 heq0 =>
      split at h
      next policy_name heqname =>
        split at h
        next => simp at h
        next hig =>
          split at h
          next => simp at h
          next hpat =>
            split at h
            next heqts => simp at h
            next v heqts =>
              simp only [Except.ok.injEq, Option.some.injEq] at h
              subst h
              exact ⟨by simpa using hig, _, rfl⟩
      next => simp at h
    next => simp at h
  | nul => simp [processPolicyItem] at h
  | boolV b => simp [processPolicyItem] at h
  | intV n => simp [processPolicyItem] at h
  | strV s => simp [processPolicyItem] at h
  | seq xs => simp [processPolicyItem] at h

theorem processPolicyItem_policy_clean {ig : List String} {pat : Option String}
    {item : DVal} {e : PolicyEntry} (h : processPolicyItem ig pat item = .ok (some e)) :
    aget e.policy "last_updated_time" = none := by
  obtain ⟨-, pd, hpd⟩ := processPolicyItem_ok_inv h
  rw [hpd, aget_adjustIsm_ne _ (by decide), aget_dpop_ne _ (by decide), aget_dpop_self]

theorem processPolicyItem_ts {ig : List String} {pat : Option String}
    {item_kvs pd0 : List (String × DVal)} {v : Int} {e : PolicyEntry}
    (h1 : aget item_kvs "policy" = some (.map pd0))
    (h2 : aget pd0 "last_updated_time" = some (.intV v))
    (h : processPolicyItem ig pat (.map item_kvs) = .ok (some e)) :
    e.last_updated_time = v.fdiv 1000 := by
  have h3 : aget (dpop pd0 "policy_id") "last_updated_time" = some (.intV v) := by
    rw [aget_dpop_ne _ (by decide)]
    exact h2
  simp only [processPolicyItem, h1, h3] at h
  split at h
  next policy_name heqname =>
    split at h
    next => simp at h
    next hig =>
      split at h
      next => simp at h
      next hpat =>
        simp only [Except.ok.injEq, Option.some.injEq] at h
        subst h
        rfl
  next => simp at h

theorem mem_collectPolicies {ig : List String} {pat : Option String} :
    ∀ {items : List DVal} {out : List PolicyEntry} {e : PolicyEntry},
      collectPolicies ig pat items = .ok out → e ∈ out →
      ∃ it ∈ items, processPolicyItem ig pat it = .ok (some e) := by
  intro items
  induction items with
  | nil =>
    intro out e h hm
    simp only [collectPolicies, Except.ok.injEq] at h
    subst h
    simp at hm
  | cons it rest ih =>
    intro out e h hm
    simp only [collectPolicies] at h
    cases hp : processPolicyItem ig pat it with
    | error err => rw [hp] at h; simp at h
    | ok r =>
      rw [hp] at h
      cases hc : collectPolicies ig pat rest with
      | error err => rw [hc] at h; simp at h
      | ok rs =>
        rw [hc] at h
        cases r with
        | none =>
          simp only [Except.ok.injEq] at h
          subst h
          obtain ⟨it2, hm2, hp2⟩ := ih hc hm
          exact ⟨it2, List.mem_cons_of_mem _ hm2, hp2⟩
        | some e2 =>
          simp only [Except.ok.injEq] at h
          subst h
          rcases List.mem_cons.mp hm with he | hm2
          · subst he
            exact ⟨it, List.mem_cons_self _ _, hp⟩
          · obtain ⟨it2, hm2b, hp2⟩ := ih hc hm2
            exact ⟨it2, List.mem_cons_of_mem _ hm2b, hp2⟩

theorem mem_list_policies {ig : List String} {pat : Option String}
    {resp : List (String × DVal)} {out : List PolicyEntry} {e : PolicyEntry}
    (h : list_policies ig pat resp = .ok out) (hm : e ∈ out) :
    ∃ it, processPolicyItem ig pat it = .ok (some e) := by
  simp only [list_policies] at h
  split at h
  next items heq =>
    obtain ⟨it, _, hp⟩ := mem_collectPolicies h hm
    exact ⟨it, hp⟩
  next => simp at h

/-- C8: every policy returned by `list_policies` carries the raw
document's millisecond timestamp integer-divided by 1000 as the separate
top-level `last_updated_time` field, and the cleaned policy document
itself no longer contains a `last_updated_time` key. -/
theorem claim_C8_timestamp_seconds :
    (∀ (ig : List String) (pat : Option String) (resp : List (String × DVal))
        (out : List PolicyEntry) (e : PolicyEntry),
      list_policies ig pat resp = .ok out → e ∈ out →
      aget e.policy "last_updated_time" = none) ∧
    (∀ (ig : List String) (pat : Option String) (resp : List (String × DVal))
        (items : List DVal) (out : List PolicyEntry) (e : PolicyEntry),
      aget resp "policies" = some (.seq items) →
      list_policies ig pat resp = .ok out → e ∈ out →
      ∃ it ∈ items, processPolicyItem ig pat it = .ok (some e)) ∧
    (∀ (ig : List String) (pat : Option String)
        (item_kvs pd0 : List (String × DVal)) (v : Int) (e : PolicyEntry),
      aget item_kvs "policy" = some (.map pd0) →
      aget pd0 "last_updated_time" = some (.intV v) →
      processPolicyItem ig pat (.map item_kvs) = .ok (some e) →
      e.last_updated_time = v.fdiv 1000) := by
  refine ⟨?_, ?_, ?_⟩
  · intro ig pat resp out e h hm
    obtain ⟨it, hp⟩ := mem_list_policies h hm
    exact processPolicyItem_policy_clean hp
  · intro ig pat resp items out e hr h hm
    simp only [list_policies, hr] at h
    exact mem_collectPolicies h hm
  · intro ig pat item_kvs pd0 v e h1 h2 h
    exact processPolicyItem_ts h1 h2 h

/-- Witness for C8: one raw policy with timestamp 5999 ms; the entry
reports 5 s and its cleaned document has no timestamp key. -/
theorem claim_C8_witness :
    list_policies [] none
        [("policies", .seq [.map [("policy",
          .map [("policy_id", .strV "p1"), ("last_updated_time", .intV 5999)])]])] =
      .ok [⟨"p1", [], 5⟩] ∧
    aget (PolicyEntry.mk "p1" [] 5).policy "last_updated_time" = none ∧
    (PolicyEntry.mk "p1" [] 5).last_updated_time = (5999 : Int).fdiv 1000 := by
  refine ⟨rfl, ?_, ?_⟩
  · exact (claim_C8_timestamp_seconds).1 [] none
      [("policies", .seq [.map [("policy",
        .map [("policy_id", .strV "p1"), ("last_updated_time", .intV 5999)])]])]
      [⟨"p1", [], 5⟩] ⟨"p1", [], 5⟩ rfl (List.mem_singleton.mpr rfl)
  · exact (claim_C8_timestamp_seconds).2.2 [] none
      [("policy", .map [("policy_id", .strV "p1"), ("last_updated_time", .intV 5999)])]
      [("policy_id", .strV "p1"), ("last_updated_time", .intV 5999)] 5999 ⟨"p1", [], 5⟩
      rfl rfl rfl

/-- C9: `save_policy` swallows write failures and still returns the
intended file path, so `save_policies` reports one saved path per listed
policy regardless of write success. -/
theorem claim_C9_save_paths_regardless :
    (∀ (dir name : String) (writeOk : Bool),
      save_policy dir name writeOk = savePath dir name) ∧
    (∀ (dir : String) (ig : List String) (pat : Option String)
        (resp : List (String × DVal)) (writeOk : String → Bool)
        (es : List PolicyEntry),
      list_policies ig pat resp = .ok es →
      ∃ fs, save_policies dir ig pat resp writeOk = .ok fs ∧
        fs.length = es.length) := by
  constructor
  · intro dir name writeOk
    cases writeOk <;> rfl
  · intro dir ig pat resp writeOk es h
    refine ⟨es.map fun p => save_policy dir p.name (writeOk p.name), ?_, by simp⟩
    simp [save_policies, h]

/-- Witness for C9: one listed policy, a write oracle that fails every
write, and still one reported path. -/
theorem claim_C9_witness :
    list_policies [] none
        [("policies", .seq [.map [("policy",
          .map [("policy_id", .strV "p1"), ("last_updated_time", .intV 5999)])]])] =
      .ok [⟨"p1", [], 5⟩] ∧
    ∃ fs, save_policies "d" [] none
        [("policies", .seq [.map [("policy",
          .map [("policy_id", .strV "p1"), ("last_updated_time", .intV 5999)])]])]
        (fun _ => false) = .ok fs ∧
      fs.length = ([⟨"p1", [], 5⟩] : List PolicyEntry).length :=
  ⟨rfl, (claim_C9_save_paths_regardless).2 "d" [] none
    [("policies", .seq [.map [("policy",
      .map [("policy_id", .strV "p1"), ("last_updated_time", .intV 5999)])]])]
    (fun _ => false) [⟨"p1", [], 5⟩] rfl⟩

theorem publishLoop_calls (dir : String) (pat : Option String)
    (pub : String → String → List PutCall × Bool) :
    ∀ (files : List String) (acc : List (String × Bool))
      (calls : List (String × String)),
      (publishLoop dir pat pub files acc calls).2 =
        calls ++ (publishSelected pat files).map
          fun f => (policyNameOfFile f, dir ++ "/" ++ f) := by
  intro files
  induction files with
  | nil =>
    intro acc calls
    simp [publishLoop, publishSelected]
  | cons file rest ih =>
    intro acc calls
    by_cases hy : hasYamlExt file = true
    · by_cases hp : patSkip pat (policyNameOfFile file) = true
      · simp [publishLoop, hy, hp, publishSelected, List.filter_cons, ih]
      · simp [publishLoop, hy, hp, publishSelected, List.filter_cons, ih]
    · simp [publishLoop, hy, publishSelected, List.filter_cons, ih]

/-- Counterexample to C1 as stated: with ignore pattern list
`["secret"]`, the local file `secret.yaml` derives the name `secret`,
which matches an ignore pattern, yet `publish_policies` attempts to
publish it and reports it in its results. -/
theorem claim_C1_counterexample :
    should_ignore ["secret"] "secret" = true ∧
    (publish_policies "d" ["secret.yaml"] none (fun _ _ => ([], true))).2 =
      [("secret", "d/secret.yaml")] ∧
    (publish_policies "d" ["secret.yaml"] none (fun _ _ => ([], true))).1 =
      [("secret", true)] :=
  ⟨rfl, rfl, rfl⟩

/-- C1 amended: entities whose names match an ignore pattern are excluded
from `list_policies` and `save_policies` results, but `publish_policies`
filters only by the caller's name-glob: it attempts every yaml/yml file
whose derived name passes that glob, ignore-matching names included. -/
theorem claim_C1_ignore_scope :
    (∀ (ig : List String) (pat : Option String) (resp : List (String × DVal))
        (out : List PolicyEntry) (e : PolicyEntry),
      list_policies ig pat resp = .ok out → e ∈ out →
      should_ignore ig e.name = false) ∧
    (∀ (dir : String) (ig : List String) (pat : Option String)
        (resp : List (String × DVal)) (writeOk : String → Bool)
        (fs : List String) (f : String),
      save_policies dir ig pat resp writeOk = .ok fs → f ∈ fs →
      ∃ nm, f = savePath dir nm ∧ should_ignore ig nm = false) ∧
    (∀ (dir : String) (files : List String) (pat : Option String)
        (pub : String → String → List PutCall × Bool),
      (publish_policies dir files pat pub).2 =
        (publishSelected pat files).map
          fun f => (policyNameOfFile f, dir ++ "/" ++ f)) := by
  refine ⟨?_, ?_, ?_⟩
  · intro ig pat resp out e h hm
    obtain ⟨it, hp⟩ := mem_list_policies h hm
    exact (processPolicyItem_ok_inv hp).1
  · intro dir ig pat resp writeOk fs f h hm
    simp only [save_policies] at h
    cases hl : list_policies ig pat resp with
    | error err => rw [hl] at h; simp at h
    | ok es =>
      rw [hl] at h
      simp only [Except.ok.injEq] at h
      subst h
      obtain ⟨e, hme, hfe⟩ := List.mem_map.mp hm
      refine ⟨e.name, ?_, ?_⟩
      · rw [← hfe]
        cases writeOk e.name <;> rfl
      · obtain ⟨it, hp⟩ := mem_list_policies hl hme
        exact (processPolicyItem_ok_inv hp).1
  · intro dir files pat pub
    simpa using publishLoop_calls dir pat pub files [] []

/-- Witness for the amended C1: a listing with one kept and one ignored
policy, its save paths, and a publish batch attempting a non-ignored
file. -/
theorem claim_C1_witness :
    list_policies [".internal*"] none
        [("policies", .seq [
          .map [("policy", .map [("policy_id", .strV "p1")])],
          .map [("policy", .map [("policy_id", .strV ".internal_policy")])]])] =
      .ok [⟨"p1", [], 0⟩] ∧
    should_ignore [".internal*"] "p1" = false ∧
    (∃ nm, "d/p1.yaml" = savePath "d" nm ∧
      should_ignore [".internal*"] nm = false) ∧
    (publish_policies "d" ["a.yaml"] none (fun _ _ => ([], true))).2 =
      [("a", "d/a.yaml")] := by
  refine ⟨rfl, ?_, ?_, ?_⟩
  · exact (claim_C1_ignore_scope).1 [".internal*"] none
      [("policies", .seq [
        .map [("policy", .map [("policy_id", .strV "p1")])],
        .map [("policy", .map [("policy_id", .strV ".internal_policy")])]])]
      [⟨"p1", [], 0⟩] ⟨"p1", [], 0⟩ rfl (List.mem_singleton.mpr rfl)
  · exact (claim_C1_ignore_scope).2.1 "d" [".internal*"] none
      [("policies", .seq [
        .map [("policy", .map [("policy_id", .strV "p1")])],
        .map [("policy", .map [("policy_id", .strV ".internal_policy")])]])]
      (fun _ => false) ["d/p1.yaml"] "d/p1.yaml" rfl
      (List.mem_singleton.mpr rfl)
  · exact ((claim_C1_ignore_scope).2.2 "d" ["a.yaml"] none
      (fun _ _ => ([], true))).trans rfl
